import Mathlib

/-!
A shallow embedding of the Context-Fetcher engine (src/main.ts of the
Context-Fetcher Obsidian plugin): content normalization (frontmatter
stripping, section-break truncation, wiki-link flattening), the privacy/tag
filter predicates, the depth-bounded BFS link traversal with its dedup sets
and safety ceiling, and the recent-daily-notes side channel.

Strings are modelled over their character lists; JS string/regex semantics
(toLowerCase, trim, the two regexes of main.ts) are reproduced over the
ASCII range, which covers every comparison the engine performs (tags,
privacy values, the YYYY-MM-DD naming convention, the three-dash
delimiters).
-/

namespace ContextFetcher

/-- ASCII lower-casing of one character; models the JS toLowerCase calls of
main.ts, which the engine only applies before comparing against ASCII
configuration strings. -/
def asciiLower (c : Char) : Char :=
  if 'A' ≤ c ∧ c ≤ 'Z' then Char.ofNat (c.toNat + 32) else c

/-- The whitespace class used by JS trim and the backslash-s regex class,
restricted to its ASCII members. -/
def isJsWS (c : Char) : Bool :=
  c = ' ' || c = '\t' || c = '\n' || c = '\x0b' || c = '\x0c' || c = '\r'

/-- JS String.prototype.trim on a character list. -/
def trimChars (l : List Char) : List Char :=
  ((l.dropWhile isJsWS).reverse.dropWhile isJsWS).reverse

/-- JS String.prototype.trim. -/
def jsTrim (s : String) : String := String.mk (trimChars s.data)

/-- JS String.prototype.toLowerCase (ASCII range). -/
def jsToLower (s : String) : String := String.mk (s.data.map asciiLower)

/-- First index at or after the current position where the pattern occurs,
counting from the given offset; models JS String.prototype.indexOf. -/
def findSub (pat : List Char) : List Char → Nat → Option Nat
  | [], i => if pat.isPrefixOf ([] : List Char) then some i else none
  | c :: rest, i =>
    if pat.isPrefixOf (c :: rest) then some i else findSub pat rest (i + 1)

/-- After the three dashes of the separator regex of main.ts, the remainder
of the match is whitespace up to a line end: skip non-newline whitespace and
require end of input or a newline (the multiline dollar anchor). -/
def sepTail (l : List Char) : Bool :=
  match l.dropWhile (fun c => isJsWS c && !(c == '\n')) with
  | [] => true
  | c :: _ => c == '\n'

/-- Does a match of the separator regex body (whitespace-run, three dashes,
whitespace-run, line end) start at the head of the list?  The leading
whitespace-run may span newlines, exactly as the backslash-s class does. -/
def sepFrom : List Char → Bool
  | '-' :: '-' :: '-' :: rest => sepTail rest
  | c :: rest => isJsWS c && sepFrom rest
  | [] => false

/-- Scan for the leftmost match start of the multiline separator regex of
main.ts; the flag records whether the current position is a line start
(position zero or just after a newline), where the caret anchor matches. -/
def sepIdxGo : List Char → Nat → Bool → Option Nat
  | [], _, _ => none
  | c :: rest, i, atStart =>
    if atStart && sepFrom (c :: rest) then some i
    else sepIdxGo rest (i + 1) (c == '\n')

/-- Index of the leftmost match of the separator regex, as
RegExp.prototype.exec reports it in main.ts. -/
def sepMatchIndex (l : List Char) : Option Nat := sepIdxGo l 0 true

/-- The frontmatter delimiter string of main.ts. -/
def fmSeparator : List Char := ['-', '-', '-', '\n']

/-- Character-list core of truncateContentAfterFirstSeparator: strip a
well-formed leading frontmatter block (delimiter line at the start with a
second exact delimiter occurrence later; a missing second occurrence keeps
the start index at zero), then truncate the body at the leftmost separator
line and trim the result. -/
def truncateListAfterFirstSeparator (l : List Char) : List Char :=
  let contentStartIndex :=
    if fmSeparator.isPrefixOf l then
      match findSub fmSeparator (l.drop 4) 0 with
      | some e => (e + 4) + 4
      | none => 0
    else 0
  let contentBody := l.drop contentStartIndex
  match sepMatchIndex contentBody with
  | some idx => trimChars (contentBody.take idx)
  | none => trimChars contentBody

/-- The truncateContentAfterFirstSeparator helper of main.ts. -/
def truncateContentAfterFirstSeparator (s : String) : String :=
  String.mk (truncateListAfterFirstSeparator s.data)

/-- Attempt to match the wiki-link regex of main.ts directly after an
opening double bracket: an optional alias part (one or more characters that
are neither pipe nor closing bracket, then a pipe), a captured run of one or
more non-closing-bracket characters, then a closing double bracket.  On
success, returns the capture and the remainder after the match; the
fallback branch reproduces the backtracking into the no-alias alternative. -/
def matchLink (t : List Char) : Option (List Char × List Char) :=
  let tryPlain : Option (List Char × List Char) :=
    let pr := t.span (fun c => !(c == ']'))
    if !pr.1.isEmpty && ([']', ']'] : List Char).isPrefixOf pr.2 then
      some (pr.1, pr.2.drop 2)
    else none
  let pr1 := t.span (fun c => !(c == '|') && !(c == ']'))
  match pr1.2 with
  | '|' :: t2 =>
    if pr1.1.isEmpty then tryPlain
    else
      let pr2 := t2.span (fun c => !(c == ']'))
      if !pr2.1.isEmpty && ([']', ']'] : List Char).isPrefixOf pr2.2 then
        some (pr2.1, pr2.2.drop 2)
      else tryPlain
  | _ => tryPlain

/-- Global-replace scan of removeWikiLinks: at each position try the link
regex; on a match emit the capture and resume after the match, otherwise
copy one character and resume.  The fuel counts scan steps; every step
consumes at least one input character, so fuel equal to the input length
makes the exhaustion branch unreachable. -/
def removeLinksGo : Nat → List Char → List Char
  | 0, l => l
  | _ + 1, [] => []
  | _ + 1, [c] => [c]
  | fuel + 1, c1 :: c2 :: rest =>
    if c1 == '[' && c2 == '[' then
      match matchLink rest with
      | some pr => pr.1 ++ removeLinksGo fuel pr.2
      | none => c1 :: removeLinksGo fuel (c2 :: rest)
    else c1 :: removeLinksGo fuel (c2 :: rest)

/-- The removeWikiLinks helper of main.ts. -/
def removeWikiLinks (s : String) : String :=
  String.mk (removeLinksGo s.data.length s.data)

/-- The content normalization pipeline applied to every included note in
main.ts: truncate after the first separator, then flatten wiki links. -/
def normalize (s : String) : String :=
  removeWikiLinks (truncateContentAfterFirstSeparator s)

/-- A parsed frontmatter privacy entry as parseFrontMatterEntry delivers it:
a string, an explicit YAML null, an absent key, or any other value kind
(number, boolean, array, object). -/
inductive FMValue where
  | str (s : String)
  | nullv
  | absent
  | other
deriving DecidableEq

/-- The slice of a metadata cache the filters consult: the privacy
frontmatter entry and the tag list as getAllTags returns it (tags carry
their leading hash marker). -/
structure Cache where
  privacy : FMValue
  tags : List String
deriving DecidableEq

/-- The slice of a TFile the engine reads: display basename and extension;
the full file name is basename, dot, extension. -/
structure FileInfo where
  basename : String
  extension : String
deriving DecidableEq

/-- The linkDepth setting as a JS value: a number, NaN, or a non-number. -/
inductive JSDepth where
  | num (x : Int)
  | nanv
  | notNumber
deriving DecidableEq

/-- The plugin settings consulted by createContextFile. -/
structure MyPluginSettings where
  includePrivacyLevels : List String
  linkDepth : JSDepth
  targetTags : List String
  includeRecentDailyNotes : Bool
  numberOfRecentDays : Nat
deriving DecidableEq

/-- The document-store collaborator: file resolution, metadata cache,
resolved outgoing links (in key order), content reads (none models a read
error), and the markdown file listing used by the daily-notes channel. -/
structure Vault where
  getFile : String → Option FileInfo
  getCache : String → Option Cache
  resolvedLinks : String → List String
  readContent : String → Option String
  markdownFiles : List (String × FileInfo)

/-- The privacyValue local of passesFilters: defined only when the raw
entry is a string, in which case it is trimmed and lower-cased. -/
def privacyValueOf : FMValue → Option String
  | .str s => some (jsToLower (jsTrim s))
  | _ => none

/-- JS truthiness of the privacyValue local: a string is truthy exactly
when it is non-empty; undefined is falsy. -/
def truthyStr : Option String → Bool
  | some s => !(s == "")
  | none => false

/-- The privacy check shared by passesFilters and passesPrivacyFilter in
main.ts: a truthy privacy value passes when listed; otherwise a falsy value
passes when the sentinel is listed; an explicit null also passes when the
sentinel is listed. -/
def passesPrivacyCore (allowed : List String) (raw : FMValue) : Bool :=
  let privacyValue := privacyValueOf raw
  if truthyStr privacyValue && allowed.contains (privacyValue.getD ("")) then true
  else if !truthyStr privacyValue && allowed.contains ("none") then true
  else if (raw == FMValue.nullv) && allowed.contains ("none") then true
  else false

/-- Tag normalization applied to every file tag in passesFilters: drop the
leading hash marker and lower-case. -/
def normalizeFileTag (t : String) : String := jsToLower (String.mk (t.data.drop 1))

/-- The passesFilters helper of main.ts: fail closed without a cache; then
the privacy check; then, only when target tags are configured, require at
least one normalized file tag among them. -/
def passesFilters (settings : MyPluginSettings) (cache : Option Cache) : Bool :=
  match cache with
  | none => false
  | some c =>
    let targetTags := settings.targetTags
    let mustCheckTags := decide (targetTags.length > 0)
    let passesPrivacy := passesPrivacyCore settings.includePrivacyLevels c.privacy
    if !passesPrivacy then false
    else if mustCheckTags then
      (c.tags.map normalizeFileTag).any (fun fileTag => targetTags.contains fileTag)
    else true

/-- The passesPrivacyFilter helper of main.ts: fail closed without a cache,
otherwise the shared privacy check alone. -/
def passesPrivacyFilter (settings : MyPluginSettings) (cache : Option Cache) : Bool :=
  match cache with
  | none => false
  | some c => passesPrivacyCore settings.includePrivacyLevels c.privacy

/-- One appended block of the assembled output, in order of appearance.
Each constructor stands for exactly one template string appended to the
combinedContent accumulator in main.ts; the path field records which
document the block was produced from (the templates render its basename). -/
inductive Seg where
  | includedNote (path : String) (isSource : Bool) (depth : Nat) (basename content : String)
  | errorNote (path : String) (isSource : Bool) (depth : Nat) (basename : String)
  | skippedSource (path basename : String)
  | linkedHeader (maxDepth : Int)
  | dailyHeader (numberOfRecentDays : Nat)
  | dailyNote (path basename content : String)
  | dailyErrorNote (path basename : String)
  | noDailyPlaceholder
  | noneMatchedSummary
  | noLinkedMatchedSummary
deriving DecidableEq

/-- The mutable output state threaded through the run: the accumulated
output blocks and the contentIncludedPaths set. -/
structure ProcState where
  segs : List Seg
  included : List String
deriving DecidableEq

/-- The processAndAddNoteContent helper of main.ts.  Returns the
passesFilters verdict together with the updated state: an already-included
path short-circuits; a passing note is read and emitted (or an error block
is emitted, without marking the path included); a failing source note emits
a skipped block; a failing linked note emits nothing. -/
def processAndAddNoteContent (v : Vault) (s : MyPluginSettings) (path : String)
    (f : FileInfo) (depth : Nat) (isSourceNote : Bool) (st : ProcState) :
    Bool × ProcState :=
  if st.included.contains path then (true, st)
  else
    let passes := passesFilters s (v.getCache path)
    if passes then
      match v.readContent path with
      | some fullContent =>
        (true, ⟨st.segs ++ [Seg.includedNote path isSourceNote depth f.basename
                  (normalize fullContent)],
          path :: st.included⟩)
      | none =>
        (true, ⟨st.segs ++ [Seg.errorNote path isSourceNote depth f.basename],
          st.included⟩)
    else if isSourceNote then
      (false, ⟨st.segs ++ [Seg.skippedSource path f.basename], st.included⟩)
    else (false, st)

/-- The includedNotesCount update after a dequeued note is processed:
increment only when filters passed and the content was newly added. -/
def countUpdate (passed alreadyIncluded nowIncluded : Bool) (cnt : Nat) : Nat :=
  if passed && !alreadyIncluded && nowIncluded then cnt + 1 else cnt

/-- The enqueue loops of main.ts: walk the resolved links in order and push
each not-yet-visited target at the next depth, marking it visited
immediately. -/
def enqueueChildren (links : List String) (queue : List (String × Nat))
    (visited : List String) (nextDepth : Nat) :
    List (String × Nat) × List String :=
  links.foldl
    (fun acc nextPath =>
      if acc.2.contains nextPath then acc
      else (acc.1 ++ [(nextPath, nextDepth)], nextPath :: acc.2))
    (queue, visited)

/-- The BFS while loop of main.ts.  The fuel models the safety ceiling of
10000 iterations: each dequeue consumes one unit, and exhaustion with a
non-empty queue is the safety break.  A dequeued path that does not resolve
to a markdown file is skipped; otherwise the note is processed, the counter
updated, and its children are enqueued only while the current depth is
below the bound.  Returns the final state, visited set, counter, and
whether the ceiling tripped. -/
def bfsLoop (v : Vault) (s : MyPluginSettings) (maxDepth : Int) :
    Nat → List (String × Nat) → ProcState → List String → Nat →
    ProcState × List String × Nat × Bool
  | _, [], st, visited, cnt => (st, visited, cnt, false)
  | 0, _ :: _, st, visited, cnt => (st, visited, cnt, true)
  | fuel + 1, (currentPath, depth) :: rest, st, visited, cnt =>
    match v.getFile currentPath with
    | none => bfsLoop v s maxDepth fuel rest st visited cnt
    | some f =>
      if !(f.extension == "md") then bfsLoop v s maxDepth fuel rest st visited cnt
      else
        let alreadyIncluded := st.included.contains currentPath
        let pr := processAndAddNoteContent v s currentPath f depth false st
        let cnt2 := countUpdate pr.1 alreadyIncluded
          (pr.2.included.contains currentPath) cnt
        if (depth : Int) < maxDepth then
          let qv := enqueueChildren (v.resolvedLinks currentPath) rest visited (depth + 1)
          bfsLoop v s maxDepth fuel qv.1 pr.2 qv.2 cnt2
        else
          bfsLoop v s maxDepth fuel rest pr.2 visited cnt2

/-- ASCII digit test for the daily-note name pattern. -/
def isDigitCh (c : Char) : Bool := '0' ≤ c && c ≤ '9'

/-- The YYYY-MM-DD.md filename regex of main.ts, as an exact shape test. -/
def isDailyNameChars : List Char → Bool
  | [y1, y2, y3, y4, '-', m1, m2, '-', d1, d2, '.', 'm', 'd'] =>
    isDigitCh y1 && isDigitCh y2 && isDigitCh y3 && isDigitCh y4 &&
    isDigitCh m1 && isDigitCh m2 && isDigitCh d1 && isDigitCh d2
  | _ => false

/-- The daily-note filename test applied to a TFile name. -/
def isDailyName (name : String) : Bool := isDailyNameChars name.data

/-- The daily-notes candidate filter of main.ts: name matches the dated
pattern and some tag lower-cases to a string starting with the daily
marker. -/
def isDailyCandidate (v : Vault) (pf : String × FileInfo) : Bool :=
  isDailyName (pf.2.basename ++ (".") ++ pf.2.extension) &&
  (match v.getCache pf.1 with
   | none => false
   | some c => c.tags.any (fun t => (("#daily").data).isPrefixOf (jsToLower t).data))

/-- Stable insertion into a list sorted by the given precedence test: the
new element goes before the first element it may precede. -/
def insertByLe {α : Type} (le : α → α → Bool) (a : α) : List α → List α
  | [] => [a]
  | b :: t => if le a b then a :: b :: t else b :: insertByLe le a t

/-- Stable sort by the given precedence test.  Models the ES2019 stable
Array.prototype.sort: for a consistent comparator the stable sorted
permutation is unique, so any stable algorithm gives the JS result. -/
def stableSortByLe {α : Type} (le : α → α → Bool) : List α → List α
  | [] => []
  | a :: t => insertByLe le a (stableSortByLe le t)

/-- The descending-by-basename comparator of main.ts (sorting by the
date-derived file name, most recent first). -/
def dailyDescLe (a b : String × FileInfo) : Bool :=
  decide (b.2.basename ≤ a.2.basename)

/-- The filtered and sorted daily-note candidates. -/
def dailySorted (v : Vault) : List (String × FileInfo) :=
  stableSortByLe dailyDescLe (v.markdownFiles.filter (isDailyCandidate v))

/-- The slice of the most recent candidates that main.ts processes. -/
def dailyToProcess (v : Vault) (s : MyPluginSettings) : List (String × FileInfo) :=
  (dailySorted v).take s.numberOfRecentDays

/-- One iteration of the daily-notes loop: skip paths already
content-included; admit by the privacy-only filter; on a successful read
emit the note, mark it included and bump both counters; on a read error
emit an error block only. -/
def dailyStep (v : Vault) (s : MyPluginSettings)
    (acc : ProcState × Nat × Nat) (pf : String × FileInfo) : ProcState × Nat × Nat :=
  if acc.1.included.contains pf.1 then acc
  else if passesPrivacyFilter s (v.getCache pf.1) then
    match v.readContent pf.1 with
    | some fullContent =>
      (⟨acc.1.segs ++ [Seg.dailyNote pf.1 pf.2.basename (normalize fullContent)],
         pf.1 :: acc.1.included⟩,
       acc.2.1 + 1, acc.2.2 + 1)
    | none =>
      (⟨acc.1.segs ++ [Seg.dailyErrorNote pf.1 pf.2.basename], acc.1.included⟩,
       acc.2.1, acc.2.2)
  else acc

/-- The recent-daily-notes stage of main.ts (run only when enabled): append
the section header, fold the processing step over the candidates to
process, and append the explanatory placeholder when no daily note was
added.  Returns the new state and includedNotesCount. -/
def dailyStage (v : Vault) (s : MyPluginSettings) (st : ProcState) (cnt : Nat) :
    ProcState × Nat :=
  let st0 : ProcState := ⟨st.segs ++ [Seg.dailyHeader s.numberOfRecentDays], st.included⟩
  let r := (dailyToProcess v s).foldl (dailyStep v s) (st0, cnt, 0)
  if r.2.2 == 0 then (⟨r.1.segs ++ [Seg.noDailyPlaceholder], r.1.included⟩, r.2.1)
  else (r.1, r.2.1)

/-- Source-note stage of createContextFile: process the active note at
depth zero, derive the initial counter, and append the linked-notes section
header. -/
def afterSource (v : Vault) (s : MyPluginSettings) (af : String × FileInfo)
    (maxDepth : Int) : ProcState × Nat :=
  let pr := processAndAddNoteContent v s af.1 af.2 0 true ⟨[], []⟩
  (⟨pr.2.segs ++ [Seg.linkedHeader maxDepth], pr.2.included⟩,
   if pr.2.included.contains af.1 then 1 else 0)

/-- Traversal stage of createContextFile: seed the queue with the source
note's links at depth one (the source itself pre-visited), then run the
BFS loop under the safety ceiling.  Returns state, counter, and the
overrun flag. -/
def afterBFS (v : Vault) (s : MyPluginSettings) (af : String × FileInfo)
    (maxDepth : Int) : ProcState × Nat × Bool :=
  let sc := afterSource v s af maxDepth
  let qv := enqueueChildren (v.resolvedLinks af.1) [] [af.1] 1
  let r := bfsLoop v s maxDepth 10000 qv.1 sc.1 qv.2 sc.2
  (r.1, r.2.2.1, r.2.2.2)

/-- Optional daily-notes stage after traversal. -/
def afterDaily (v : Vault) (s : MyPluginSettings) (af : String × FileInfo)
    (maxDepth : Int) : ProcState × Nat × Bool :=
  let b := afterBFS v s af maxDepth
  if s.includeRecentDailyNotes then
    let dr := dailyStage v s b.1 b.2.1
    (dr.1, dr.2, b.2.2)
  else b

/-- Trailing summary stage of createContextFile: one line when nothing was
included; another when only the source was included although it had
outgoing links. -/
def finalState (v : Vault) (s : MyPluginSettings) (af : String × FileInfo)
    (maxDepth : Int) : ProcState × Nat × Bool :=
  let d := afterDaily v s af maxDepth
  if d.2.1 == 0 then
    (⟨d.1.segs ++ [Seg.noneMatchedSummary], d.1.included⟩, d.2.1, d.2.2)
  else if (d.2.1 == (if d.1.included.contains af.1 then 1 else 0)) &&
      !(v.resolvedLinks af.1).isEmpty then
    (⟨d.1.segs ++ [Seg.noLinkedMatchedSummary], d.1.included⟩, d.2.1, d.2.2)
  else d

/-- The tag part of the export file name. -/
def tagPartOf (s : MyPluginSettings) : String :=
  if s.targetTags.length > 0 then
    ("Tags-") ++ (String.intercalate ("-") (s.targetTags.take 2))
  else ("NoTags")

/-- Result of one createContextFile invocation: rejected for want of an
active markdown note, rejected for an invalid depth (before any read,
assembly, or file creation), or completed with the output blocks, the
final includedNotesCount, the safety-ceiling flag, and the export file
name handed to createOutputFile. -/
inductive RunOutcome where
  | noActiveFile
  | invalidDepth
  | completed (segs : List Seg) (includedNotesCount : Nat) (overran : Bool)
      (fileName : String)
deriving DecidableEq

/-- The depth guard of createContextFile: a number at least one. -/
def validDepth : JSDepth → Bool
  | .num x => decide (1 ≤ x)
  | _ => false

/-- The createContextFile command of main.ts: require an active markdown
note; validate the depth setting before anything else runs; then the
source, BFS, daily and summary stages in order, ending in the export file
name.  The timestamp parameter stands for the moment() call. -/
def createContextFile (v : Vault) (s : MyPluginSettings)
    (activeFile : Option (String × FileInfo)) (timestamp : String) : RunOutcome :=
  match activeFile with
  | none => RunOutcome.noActiveFile
  | some af =>
    if !(af.2.extension == "md") then RunOutcome.noActiveFile
    else
      match s.linkDepth with
      | JSDepth.num maxDepth =>
        if maxDepth < 1 then RunOutcome.invalidDepth
        else
          let fsr := finalState v s af maxDepth
          RunOutcome.completed fsr.1.segs fsr.2.1 fsr.2.2
            (("Context-") ++ af.2.basename ++ ("-") ++ tagPartOf s ++ ("-") ++
              timestamp ++ (".md"))
      | _ => RunOutcome.invalidDepth

/-- The output blocks of a run (empty for rejected runs). -/
def runSegs : RunOutcome → List Seg
  | .completed segs _ _ _ => segs
  | _ => []

/-- Does this block carry the content of the given document? -/
def isContentSegFor (p : String) : Seg → Bool
  | .includedNote q _ _ _ _ => q == p
  | .dailyNote q _ _ => q == p
  | _ => false

/-- How many blocks of the run carry the given document's content. -/
def runContentCount (p : String) (r : RunOutcome) : Nat :=
  (runSegs r).countP (isContentSegFor p)

/-- Does the character list contain an opening double bracket anywhere?
Such an occurrence is the only place the wiki-link regex can match. -/
def hasLinkStart : List Char → Bool
  | c1 :: c2 :: rest => (c1 == '[' && c2 == '[') || hasLinkStart (c2 :: rest)
  | _ => false

/-- The path resolves to a markdown file; only such nodes are expanded by
the traversal loop. -/
def mdOkP (v : Vault) (p : String) : Prop :=
  ∃ f, v.getFile p = some f ∧ f.extension = "md"

/-- There is an outgoing-link path of the given length from the source to
the target whose interior nodes are traversable: the source itself (whose
links come straight from the resolved-links table) or markdown-resolvable
documents (unresolved and non-markdown link targets are dead ends for the
traversal). -/
inductive ReachAt (v : Vault) (src : String) : String → Nat → Prop where
  | zero : ReachAt v src src 0
  | step {p c : String} {n : Nat} : ReachAt v src p n → (p = src ∨ mdOkP v p) →
      c ∈ v.resolvedLinks p → ReachAt v src c (n + 1)

/-- The target's distance from the source is exactly d: some path of length
d exists and none shorter. -/
def IsDist (v : Vault) (src tgt : String) (d : Nat) : Prop :=
  ReachAt v src tgt d ∧ ∀ d', ReachAt v src tgt d' → d ≤ d'

/-- The BFS loop invariant, relative to a two-level split of the queue:
every entry of A carries label dl and every entry of B label dl + 1 (FIFO
order makes the queue hold at most two consecutive depths).  Queue labels
are exact distances and lie within the depth bound; queued paths are
distinct, visited, and never the source; every node within distance dl
(and, once the dl level is exhausted, dl + 1) has been discovered; every
visited node that has already left the queue has had its children
discovered, when it was expandable; and the source's own links were
discovered up front. -/
structure BFSInvCore (v : Vault) (src : String) (maxD : Int)
    (queue : List (String × Nat)) (visited : List String)
    (dl : Nat) (A B : List (String × Nat)) : Prop where
  hq : queue = A ++ B
  hA : ∀ x ∈ A, x.2 = dl
  hB : ∀ x ∈ B, x.2 = dl + 1
  hdist : ∀ x ∈ queue, IsDist v src x.1 x.2
  hbound : ∀ x ∈ queue, 1 ≤ x.2 ∧ (x.2 : Int) ≤ maxD
  hnodup : (queue.map Prod.fst).Nodup
  hvisQ : ∀ x ∈ queue, x.1 ∈ visited
  hsrcVis : src ∈ visited
  hsrcQ : ∀ x ∈ queue, x.1 ≠ src
  hcompl : ∀ q j, ReachAt v src q j → j ≤ dl → q ∈ visited
  hcomplA : A = [] → ∀ q j, ReachAt v src q j → j ≤ dl + 1 → q ∈ visited
  hexp : ∀ q j, q ∈ visited → (∀ x ∈ queue, x.1 ≠ q) → q ≠ src →
      ReachAt v src q j → (j : Int) < maxD → mdOkP v q →
      ∀ c ∈ v.resolvedLinks q, c ∈ visited
  hsrcExp : ∀ c ∈ v.resolvedLinks src, c ∈ visited

/-- The loop invariant proper: trivial for an empty queue, otherwise the
core invariant for some two-level split. -/
def BFSInv (v : Vault) (src : String) (maxD : Int)
    (queue : List (String × Nat)) (visited : List String) : Prop :=
  queue = [] ∨ ∃ dl A B, BFSInvCore v src maxD queue visited dl A B

/-- Deduplication invariant of the output state: each document's content
appears at most once among the blocks, and only for documents recorded in
the contentIncludedPaths set. -/
def contentInv (st : ProcState) : Prop :=
  ∀ p, st.segs.countP (isContentSegFor p) ≤ (if p ∈ st.included then 1 else 0)

/-- A vault with no resolvable files at all, for concrete instantiations. -/
def emptyVault : Vault :=
  ⟨fun _ => none, fun _ => none, fun _ => [], fun _ => none, []⟩

/-- A two-note vault whose only linked note fails every content read, for
concrete instantiations of the read-error claims. -/
def errVault : Vault := {
  getFile := fun p =>
    if p == ("s.md") then some ⟨"s", "md"⟩
    else if p == ("e.md") then some ⟨"e", "md"⟩
    else none
  getCache := fun p => if p == ("e.md") then some ⟨FMValue.absent, []⟩ else none
  resolvedLinks := fun p => if p == ("s.md") then [("e.md")] else []
  readContent := fun _ => none
  markdownFiles := [] }

/-- A two-note vault where the source links to one readable note, for
concrete instantiations of the traversal claims. -/
def witVault : Vault := {
  getFile := fun p =>
    if p == ("s.md") then some ⟨"s", "md"⟩
    else if p == ("a.md") then some ⟨"a", "md"⟩
    else none
  getCache := fun p =>
    if p == ("s.md") then some ⟨FMValue.absent, []⟩
    else if p == ("a.md") then some ⟨FMValue.absent, []⟩
    else none
  resolvedLinks := fun p => if p == ("s.md") then [("a.md")] else []
  readContent := fun p =>
    if p == ("s.md") then some ("src") else if p == ("a.md") then some ("hi") else none
  markdownFiles := [] }

/-- Settings that admit every note lacking a privacy key, depth one, no
required tags, daily channel off. -/
def witSettings : MyPluginSettings := ⟨[("none")], JSDepth.num 1, [], false, 3⟩

theorem passesPrivacyCore_other (allowed : List String) :
    passesPrivacyCore allowed FMValue.other = allowed.contains ("none") := by
  cases h : allowed.contains ("none") <;>
    simp [passesPrivacyCore, privacyValueOf, truthyStr, h] <;> simp_all

theorem passesPrivacyCore_absent (allowed : List String) :
    passesPrivacyCore allowed FMValue.absent = allowed.contains ("none") := by
  cases h : allowed.contains ("none") <;>
    simp [passesPrivacyCore, privacyValueOf, truthyStr, h] <;> simp_all

/-- C9: a privacy frontmatter entry that is neither a string nor null is
treated by both filters exactly like an absent privacy key: the privacy
check passes iff the sentinel is among the allowed values. -/
theorem claimC9_thm (s : MyPluginSettings) (tags : List String) :
    passesPrivacyFilter s (some ⟨FMValue.other, tags⟩)
        = s.includePrivacyLevels.contains ("none")
    ∧ passesFilters s (some ⟨FMValue.other, tags⟩)
        = passesFilters s (some ⟨FMValue.absent, tags⟩)
    ∧ passesPrivacyFilter s (some ⟨FMValue.other, tags⟩)
        = passesPrivacyFilter s (some ⟨FMValue.absent, tags⟩) := by
  refine ⟨?_, ?_, ?_⟩ <;>
    simp [passesPrivacyFilter, passesFilters, passesPrivacyCore_other,
      passesPrivacyCore_absent]

/-- C1 (amended): the implemented filter consults no excluded-tag
configuration at all; it is exactly the privacy check conjoined with the
required-tag overlap check (vacuous when no tags are required). -/
theorem claimC1_thm (s : MyPluginSettings) (c : Cache) :
    passesFilters s (some c) =
      (passesPrivacyCore s.includePrivacyLevels c.privacy &&
       (s.targetTags.isEmpty ||
        (c.tags.map normalizeFileTag).any (fun t => s.targetTags.contains t))) := by
  cases h : passesPrivacyCore s.includePrivacyLevels c.privacy <;>
    cases ht : s.targetTags <;>
      simp [passesFilters, h, ht]

/-- C1 (counterexample): a document whose normalized tag set meets the
putative excluded set (here, the archive tag) still passes the full filter
when privacy and required tags allow it — exclusion-wins does not hold. -/
theorem claimC1_counterexample :
    (((Cache.mk (FMValue.str ("public")) [("#archive")]).tags.map normalizeFileTag).any
        (fun t => (["archive"] : List String).contains t)) = true
    ∧ passesFilters ⟨[("public")], JSDepth.num 1, [], false, 3⟩
        (some (Cache.mk (FMValue.str ("public")) [("#archive")])) = true := by
  decide

/-- C4: on content that opens with the frontmatter delimiter line but has
no second delimiter occurrence, the normalizer returns the empty string —
the malformed-block branch keeps the start index at zero, but the orphan
delimiter then matches the section-break regex at index zero and the whole
body is truncated away. -/
theorem claimC4_thm :
    fmSeparator.isPrefixOf (("---\ntitle: note\nThe body text").data) = true
    ∧ findSub fmSeparator ((("---\ntitle: note\nThe body text").data).drop 4) 0 = none
    ∧ truncateContentAfterFirstSeparator ("---\ntitle: note\nThe body text") = ("")
    ∧ normalize ("---\ntitle: note\nThe body text") = ("") := by
  decide

/-- C6: an invalid depth setting (non-number, NaN, or a number below one)
makes createContextFile return the invalid-depth rejection, which in the
model precedes every read, assembly and file-creation step. -/
theorem claimC6_thm (v : Vault) (s : MyPluginSettings) (af : String × FileInfo)
    (ts : String) (hmd : af.2.extension = "md")
    (hbad : validDepth s.linkDepth = false) :
    createContextFile v s (some af) ts = RunOutcome.invalidDepth := by
  unfold createContextFile
  cases hd : s.linkDepth with
  | num x =>
    have hx : x < 1 := by
      have := hbad
      rw [hd] at this
      simpa [validDepth] using this
    simp [hmd, hx]
  | nanv => simp [hmd]
  | notNumber => simp [hmd]

theorem claimC6_witness :
    validDepth (MyPluginSettings.mk [("none")] JSDepth.nanv [] false 3).linkDepth = false
    ∧ createContextFile emptyVault ⟨[("none")], JSDepth.nanv, [], false, 3⟩
        (some (("s.md"), ⟨"s", "md"⟩)) ("t") = RunOutcome.invalidDepth :=
  ⟨by decide,
   claimC6_thm emptyVault ⟨[("none")], JSDepth.nanv, [], false, 3⟩
     (("s.md"), ⟨"s", "md"⟩) ("t") (by decide) (by decide)⟩

theorem removeLinksGo_nil (fuel : Nat) : removeLinksGo fuel [] = [] := by
  cases fuel <;> rfl

theorem removeLinksGo_id (fuel : Nat) :
    ∀ l : List Char, hasLinkStart l = false → removeLinksGo fuel l = l := by
  induction fuel with
  | zero => intro l _; rfl
  | succ n ih =>
    intro l h
    match l with
    | [] => rfl
    | [c] => rfl
    | c1 :: c2 :: rest =>
      have hnot : (c1 == '[' && c2 == '[') = false := by
        have := h
        unfold hasLinkStart at this
        exact (Bool.or_eq_false_iff.mp this).1
      have htail : hasLinkStart (c2 :: rest) = false := by
        have := h
        unfold hasLinkStart at this
        exact (Bool.or_eq_false_iff.mp this).2
      simp only [removeLinksGo, hnot, Bool.false_eq_true, if_false]
      rw [ih (c2 :: rest) htail]

theorem sepMatchIndex_none_not_fm {l : List Char} (h : sepMatchIndex l = none) :
    fmSeparator.isPrefixOf l = false := by
  by_contra hb
  have hpre : fmSeparator.isPrefixOf l := by
    cases hx : fmSeparator.isPrefixOf l
    · exact absurd hx hb
    · rfl
  have hl : fmSeparator <+: l := by
    exact List.isPrefixOf_iff_prefix.mp hpre
  obtain ⟨t, ht⟩ := hl
  subst ht
  simp [sepMatchIndex, sepIdxGo, sepFrom, sepTail, fmSeparator, isJsWS] at h

/-- C8 (amended): on already-normalized content — no line matches the
section-break regex (which also rules out a leading frontmatter delimiter),
no opening double bracket occurs, and the string is trim-stable — the
normalizer is the identity. -/
theorem claimC8_thm (s : String) (hsep : sepMatchIndex s.data = none)
    (hll : hasLinkStart s.data = false) (htrim : jsTrim s = s) :
    normalize s = s := by
  have hfm := sepMatchIndex_none_not_fm hsep
  have ht : truncateContentAfterFirstSeparator s = s := by
    unfold truncateContentAfterFirstSeparator truncateListAfterFirstSeparator
    simp only [hfm, Bool.false_eq_true, if_false, List.drop_zero, hsep]
    exact htrim
  unfold normalize
  rw [ht]
  unfold removeWikiLinks
  rw [removeLinksGo_id _ _ hll]

/-- C8 (counterexample): normalization is not idempotent — nested link
syntax is flattened one layer per pass. -/
theorem claimC8_counterexample :
    normalize (normalize ("[[[[x]]]]")) ≠ normalize ("[[[[x]]]]") := by
  decide

theorem claimC8_witness :
    sepMatchIndex (("hello world").data) = none
    ∧ hasLinkStart (("hello world").data) = false
    ∧ jsTrim ("hello world") = ("hello world")
    ∧ normalize ("hello world") = ("hello world") :=
  ⟨by decide, by decide, by decide,
   claimC8_thm ("hello world") (by decide) (by decide) (by decide)⟩

theorem processAndAdd_readError (v : Vault) (s : MyPluginSettings) (p : String)
    (f : FileInfo) (d : Nat) (isSrc : Bool) (st : ProcState)
    (hni : st.included.contains p = false)
    (hpass : passesFilters s (v.getCache p) = true)
    (herr : v.readContent p = none) :
    processAndAddNoteContent v s p f d isSrc st =
      (true, ⟨st.segs ++ [Seg.errorNote p isSrc d f.basename], st.included⟩) := by
  have hni2 : p ∉ st.included := by simpa using hni
  simp [processAndAddNoteContent, hni2, hpass, herr]

/-- C10: when a note passes the filters but its content read fails, the
processing step emits the error block yet leaves the inclusion record
unchanged, and the counter update that follows in the loop adds nothing —
only successfully read content is recorded as included. -/
theorem claimC10_thm (v : Vault) (s : MyPluginSettings) (p : String) (f : FileInfo)
    (d : Nat) (isSrc : Bool) (st : ProcState) (cnt : Nat)
    (hni : st.included.contains p = false)
    (hpass : passesFilters s (v.getCache p) = true)
    (herr : v.readContent p = none) :
    processAndAddNoteContent v s p f d isSrc st =
      (true, ⟨st.segs ++ [Seg.errorNote p isSrc d f.basename], st.included⟩)
    ∧ countUpdate true (st.included.contains p)
        ((processAndAddNoteContent v s p f d isSrc st).2.included.contains p) cnt
      = cnt := by
  have h := processAndAdd_readError v s p f d isSrc st hni hpass herr
  refine ⟨h, ?_⟩
  rw [h]
  simp [countUpdate, hni]

theorem claimC10_witness :
    ((⟨[], []⟩ : ProcState).included.contains ("e.md") = false
      ∧ passesFilters witSettings (errVault.getCache ("e.md")) = true
      ∧ errVault.readContent ("e.md") = none)
    ∧ (processAndAddNoteContent errVault witSettings ("e.md") ⟨"e", "md"⟩ 1 false ⟨[], []⟩ =
        (true, ⟨[Seg.errorNote ("e.md") false 1 ("e")], []⟩)
      ∧ countUpdate true ((⟨[], []⟩ : ProcState).included.contains ("e.md"))
          ((processAndAddNoteContent errVault witSettings ("e.md") ⟨"e", "md"⟩ 1 false
              ⟨[], []⟩).2.included.contains ("e.md")) 0
        = 0) :=
  ⟨⟨by decide, by decide, by decide⟩,
   claimC10_thm errVault witSettings ("e.md") ⟨"e", "md"⟩ 1 false ⟨[], []⟩ 0
     (by decide) (by decide) (by decide)⟩

/-- C5: a read failure on a note that passed the filters does not abort the
loop: the error block is appended, the inclusion record and counter stay
unchanged, and the loop carries on with the remaining queue (plus the
note's children, when the depth bound allows expansion). -/
theorem claimC5_thm (v : Vault) (s : MyPluginSettings) (maxDepth : Int) (fuel : Nat)
    (p : String) (f : FileInfo) (d : Nat) (rest : List (String × Nat))
    (st : ProcState) (visited : List String) (cnt : Nat)
    (hf : v.getFile p = some f) (hmd : f.extension = "md")
    (hni : st.included.contains p = false)
    (hpass : passesFilters s (v.getCache p) = true)
    (herr : v.readContent p = none) :
    bfsLoop v s maxDepth (fuel + 1) ((p, d) :: rest) st visited cnt =
      (if (d : Int) < maxDepth then
        bfsLoop v s maxDepth fuel
          (enqueueChildren (v.resolvedLinks p) rest visited (d + 1)).1
          ⟨st.segs ++ [Seg.errorNote p false d f.basename], st.included⟩
          (enqueueChildren (v.resolvedLinks p) rest visited (d + 1)).2 cnt
      else
        bfsLoop v s maxDepth fuel rest
          ⟨st.segs ++ [Seg.errorNote p false d f.basename], st.included⟩
          visited cnt) := by
  have h := processAndAdd_readError v s p f d false st hni hpass herr
  simp only [bfsLoop, hf, hmd, beq_self_eq_true, Bool.not_true, Bool.false_eq_true,
    if_false]
  rw [h]
  simp [countUpdate, hni]

theorem claimC5_witness :
    (errVault.getFile ("e.md") = some ⟨"e", "md"⟩
      ∧ (⟨"e", "md"⟩ : FileInfo).extension = ("md")
      ∧ (⟨[], []⟩ : ProcState).included.contains ("e.md") = false
      ∧ passesFilters witSettings (errVault.getCache ("e.md")) = true
      ∧ errVault.readContent ("e.md") = none)
    ∧ bfsLoop errVault witSettings 1 6 [(("e.md"), 1)] ⟨[], []⟩ [("s.md"), ("e.md")] 0 =
      (if ((1 : Nat) : Int) < 1 then
        bfsLoop errVault witSettings 1 5
          (enqueueChildren (errVault.resolvedLinks ("e.md")) [] [("s.md"), ("e.md")] 2).1
          ⟨[Seg.errorNote ("e.md") false 1 ("e")], []⟩
          (enqueueChildren (errVault.resolvedLinks ("e.md")) [] [("s.md"), ("e.md")] 2).2 0
      else
        bfsLoop errVault witSettings 1 5 []
          ⟨[Seg.errorNote ("e.md") false 1 ("e")], []⟩ [("s.md"), ("e.md")] 0) :=
  ⟨⟨by decide, by decide, by decide, by decide, by decide⟩,
   claimC5_thm errVault witSettings 1 5 ("e.md") ⟨"e", "md"⟩ 1 [] ⟨[], []⟩
     [("s.md"), ("e.md")] 0 (by decide) (by decide) (by decide) (by decide) (by decide)⟩

theorem mem_insertByLe {α : Type} (le : α → α → Bool) (a x : α) :
    ∀ l : List α, x ∈ insertByLe le a l ↔ x = a ∨ x ∈ l := by
  intro l
  induction l with
  | nil => simp [insertByLe]
  | cons b t ih =>
    by_cases hb : le a b = true <;>
      simp only [insertByLe, hb, if_true, Bool.false_eq_true, if_false,
        List.mem_cons, ih] <;>
      tauto

theorem pairwise_insertByLe {α : Type} (le : α → α → Bool)
    (htrans : ∀ a b c, le a b = true → le b c = true → le a c = true)
    (htot : ∀ a b, le a b = true ∨ le b a = true) (a : α) :
    ∀ l : List α, List.Pairwise (fun x y => le x y = true) l →
      List.Pairwise (fun x y => le x y = true) (insertByLe le a l) := by
  intro l
  induction l with
  | nil => intro _; simp [insertByLe]
  | cons b t ih =>
    intro h
    rcases List.pairwise_cons.mp h with ⟨hbt, ht⟩
    by_cases hb : le a b = true
    · simp only [insertByLe, hb, if_true]
      refine List.pairwise_cons.mpr ⟨?_, h⟩
      intro x hx
      rcases List.mem_cons.mp hx with hx1 | hx1
      · rw [hx1]; exact hb
      · exact htrans a b x hb (hbt x hx1)
    · simp only [insertByLe, hb, Bool.false_eq_true, if_false]
      refine List.pairwise_cons.mpr ⟨?_, ih ht⟩
      intro x hx
      rcases (mem_insertByLe le a x t).mp hx with hx1 | hx1
      · rcases htot a b with hc | hc
        · exact absurd hc hb
        · rw [hx1]; exact hc
      · exact hbt x hx1

theorem pairwise_stableSortByLe {α : Type} (le : α → α → Bool)
    (htrans : ∀ a b c, le a b = true → le b c = true → le a c = true)
    (htot : ∀ a b, le a b = true ∨ le b a = true) :
    ∀ l : List α, List.Pairwise (fun x y => le x y = true) (stableSortByLe le l) := by
  intro l
  induction l with
  | nil => simp [stableSortByLe]
  | cons a t ih => exact pairwise_insertByLe le htrans htot a _ ih

theorem dailyDescLe_trans (a b c : String × FileInfo) :
    dailyDescLe a b = true → dailyDescLe b c = true → dailyDescLe a c = true := by
  simp only [dailyDescLe, decide_eq_true_eq]
  intro h1 h2
  exact le_trans h2 h1

theorem dailyDescLe_total (a b : String × FileInfo) :
    dailyDescLe a b = true ∨ dailyDescLe b a = true := by
  simp only [dailyDescLe, decide_eq_true_eq]
  exact le_total b.2.basename a.2.basename

theorem dailyFold_dailyNote_mem (v : Vault) (s : MyPluginSettings) :
    ∀ (L : List (String × FileInfo)) (acc : ProcState × Nat × Nat) (p b c : String),
      Seg.dailyNote p b c ∈ (L.foldl (dailyStep v s) acc).1.segs →
      Seg.dailyNote p b c ∈ acc.1.segs ∨
        ∃ f, (p, f) ∈ L ∧ passesPrivacyFilter s (v.getCache p) = true := by
  intro L
  induction L with
  | nil => intro acc p b c h; exact Or.inl h
  | cons pf L ih =>
    intro acc p b c h
    rw [List.foldl_cons] at h
    rcases ih (dailyStep v s acc pf) p b c h with h1 | h1
    · by_cases h2 : acc.1.included.contains pf.1 = true
      · rw [dailyStep, if_pos h2] at h1
        exact Or.inl h1
      · by_cases h3 : passesPrivacyFilter s (v.getCache pf.1) = true
        · cases hr : v.readContent pf.1 with
          | some fc =>
            rw [dailyStep, if_neg h2, if_pos h3, hr] at h1
            simp only [List.mem_append, List.mem_singleton] at h1
            rcases h1 with h1 | h1
            · exact Or.inl h1
            · rcases Seg.dailyNote.injEq .. ▸ h1 with ⟨hp, _, _⟩
              exact Or.inr ⟨pf.2, by rw [Seg.dailyNote.injEq] at h1; rcases h1 with ⟨hp, hb, hc⟩; subst hp; exact ⟨List.mem_cons_self pf L, h3⟩⟩
          | none =>
            rw [dailyStep, if_neg h2, if_pos h3, hr] at h1
            simp only [List.mem_append, List.mem_singleton] at h1
            rcases h1 with h1 | h1
            · exact Or.inl h1
            · exact absurd h1 (by simp)
        · rw [dailyStep, if_neg h2, if_neg h3] at h1
          exact Or.inl h1
    · rcases h1 with ⟨f, hf, hp⟩
      exact Or.inr ⟨f, List.mem_cons_of_mem pf hf, hp⟩

/-- C7: the daily-notes channel never consults the required-tag
configuration; its candidates are sorted descending by the date-derived
basename; those processed are exactly the first numberOfRecentDays of that
order; and every daily block it emits is for a processed candidate that
passed the privacy-only filter. -/
theorem claimC7_thm (v : Vault) (s : MyPluginSettings) (ts' : List String)
    (st : ProcState) (cnt : Nat) :
    dailyStage v { s with targetTags := ts' } st cnt = dailyStage v s st cnt
    ∧ List.Pairwise (fun a b => dailyDescLe a b = true) (dailySorted v)
    ∧ dailyToProcess v s = (dailySorted v).take s.numberOfRecentDays
    ∧ (∀ p b c, Seg.dailyNote p b c ∈ (dailyStage v s st cnt).1.segs →
        Seg.dailyNote p b c ∈ st.segs ∨
          ∃ f, (p, f) ∈ dailyToProcess v s ∧
            passesPrivacyFilter s (v.getCache p) = true) := by
  refine ⟨rfl, pairwise_stableSortByLe dailyDescLe dailyDescLe_trans dailyDescLe_total _,
    rfl, ?_⟩
  intro p b c h
  unfold dailyStage at h
  by_cases hz : ((dailyToProcess v s).foldl (dailyStep v s)
      (⟨st.segs ++ [Seg.dailyHeader s.numberOfRecentDays], st.included⟩, cnt, 0)).2.2 == 0
  · rw [if_pos hz] at h
    simp only [List.mem_append, List.mem_singleton] at h
    rcases h with h | h
    · rcases dailyFold_dailyNote_mem v s _ _ p b c h with h1 | h1
      · simp only [List.mem_append, List.mem_singleton] at h1
        rcases h1 with h1 | h1
        · exact Or.inl h1
        · exact absurd h1 (by simp)
      · exact Or.inr h1
    · exact absurd h (by simp)
  · rw [if_neg hz] at h
    rcases dailyFold_dailyNote_mem v s _ _ p b c h with h1 | h1
    · simp only [List.mem_append, List.mem_singleton] at h1
      rcases h1 with h1 | h1
      · exact Or.inl h1
      · exact absurd h1 (by simp)
    · exact Or.inr h1

theorem contentInv_nil : contentInv ⟨[], []⟩ := by
  intro p
  simp [contentInv, isContentSegFor]

theorem contentInv_appendNonContent (st : ProcState) (a : Seg)
    (ha : ∀ p, isContentSegFor p a = false) (h : contentInv st) :
    contentInv ⟨st.segs ++ [a], st.included⟩ := by
  intro p
  simpa [List.countP_append, List.countP_cons, ha p] using h p

theorem contentInv_emit (st : ProcState) (path : String) (a : Seg)
    (ha : ∀ p, isContentSegFor p a = (path == p))
    (h1 : path ∉ st.included) (h : contentInv st) :
    contentInv ⟨st.segs ++ [a], path :: st.included⟩ := by
  intro p
  by_cases hp : p = path
  · subst hp
    have h0 : st.segs.countP (isContentSegFor p) = 0 := by
      have hb := h p
      rw [if_neg h1] at hb
      exact Nat.le_zero.mp hb
    have he : (st.segs ++ [a]).countP (isContentSegFor p) = 1 := by
      simp [List.countP_append, List.countP_cons, h0, ha p]
    rw [he]
    simp
  · have hbp : (path == p) = false := by
      simp only [beq_eq_false_iff_ne, ne_eq]
      exact fun hq => hp hq.symm
    have he : (st.segs ++ [a]).countP (isContentSegFor p)
        = st.segs.countP (isContentSegFor p) := by
      simp [List.countP_append, List.countP_cons, ha p, hbp]
    rw [he]
    refine le_trans (h p) ?_
    by_cases hm : p ∈ st.included
    · simp [hm]
    · simp [hm]

theorem contentInv_processAndAdd (v : Vault) (s : MyPluginSettings) (path : String)
    (f : FileInfo) (d : Nat) (isSrc : Bool) (st : ProcState) (h : contentInv st) :
    contentInv (processAndAddNoteContent v s path f d isSrc st).2 := by
  unfold processAndAddNoteContent
  by_cases h1 : st.included.contains path = true
  · simp only [h1, if_true]
    exact h
  · simp only [h1, Bool.false_eq_true, if_false]
    have h1' : path ∉ st.included := by simpa using h1
    by_cases h2 : passesFilters s (v.getCache path) = true
    · simp only [h2, if_true]
      cases hr : v.readContent path with
      | some fc =>
        exact contentInv_emit st path _ (fun p => by simp [isContentSegFor]) h1' h
      | none =>
        exact contentInv_appendNonContent st _ (fun p => by simp [isContentSegFor]) h
    · simp only [h2, Bool.false_eq_true, if_false]
      by_cases h3 : isSrc = true
      · simp only [h3, if_true]
        exact contentInv_appendNonContent st _ (fun p => by simp [isContentSegFor]) h
      · simp only [h3, Bool.false_eq_true, if_false]
        exact h

theorem contentInv_bfsLoop (v : Vault) (s : MyPluginSettings) (maxD : Int) :
    ∀ (fuel : Nat) (q : List (String × Nat)) (st : ProcState) (vis : List String)
      (cnt : Nat), contentInv st →
      contentInv (bfsLoop v s maxD fuel q st vis cnt).1 := by
  intro fuel
  induction fuel with
  | zero =>
    intro q st vis cnt h
    cases q <;> simpa [bfsLoop] using h
  | succ n ih =>
    intro q st vis cnt h
    match q with
    | [] => simpa [bfsLoop] using h
    | (p, d) :: rest =>
      rw [bfsLoop]
      cases hf : v.getFile p with
      | none => exact ih rest st vis cnt h
      | some f =>
        by_cases hmd : (f.extension == ("md")) = true
        · simp only [hmd, Bool.not_true, Bool.false_eq_true, if_false]
          have h2 := contentInv_processAndAdd v s p f d false st h
          by_cases hlt : (d : Int) < maxD
          · simp only [hlt, if_true]
            exact ih _ _ _ _ h2
          · simp only [hlt, if_false]
            exact ih _ _ _ _ h2
        · simp only [Bool.not_eq_true] at hmd
          simp only [hmd, Bool.not_false, if_true]
          exact ih rest st vis cnt h

theorem contentInv_dailyStep (v : Vault) (s : MyPluginSettings)
    (acc : ProcState × Nat × Nat) (pf : String × FileInfo) (h : contentInv acc.1) :
    contentInv (dailyStep v s acc pf).1 := by
  unfold dailyStep
  by_cases h1 : acc.1.included.contains pf.1 = true
  · simp only [h1, if_true]
    exact h
  · simp only [h1, Bool.false_eq_true, if_false]
    have h1' : pf.1 ∉ acc.1.included := by simpa using h1
    by_cases h2 : passesPrivacyFilter s (v.getCache pf.1) = true
    · simp only [h2, if_true]
      cases hr : v.readContent pf.1 with
      | some fc =>
        exact contentInv_emit acc.1 pf.1 _ (fun p => by simp [isContentSegFor]) h1' h
      | none =>
        exact contentInv_appendNonContent acc.1 _ (fun p => by simp [isContentSegFor]) h
    · simp only [h2, Bool.false_eq_true, if_false]
      exact h

theorem contentInv_dailyFold (v : Vault) (s : MyPluginSettings) :
    ∀ (L : List (String × FileInfo)) (acc : ProcState × Nat × Nat),
      contentInv acc.1 → contentInv ((L.foldl (dailyStep v s) acc)).1 := by
  intro L
  induction L with
  | nil => intro acc h; exact h
  | cons pf L ih =>
    intro acc h
    rw [List.foldl_cons]
    exact ih _ (contentInv_dailyStep v s acc pf h)

theorem contentInv_dailyStage (v : Vault) (s : MyPluginSettings) (st : ProcState)
    (cnt : Nat) (h : contentInv st) : contentInv (dailyStage v s st cnt).1 := by
  unfold dailyStage
  have h0 : contentInv (⟨st.segs ++ [Seg.dailyHeader s.numberOfRecentDays],
      st.included⟩ : ProcState) :=
    contentInv_appendNonContent st _ (fun p => by simp [isContentSegFor]) h
  have h1 := contentInv_dailyFold v s (dailyToProcess v s)
    (⟨st.segs ++ [Seg.dailyHeader s.numberOfRecentDays], st.included⟩, cnt, 0) h0
  by_cases hz : (((dailyToProcess v s).foldl (dailyStep v s)
      (⟨st.segs ++ [Seg.dailyHeader s.numberOfRecentDays], st.included⟩, cnt, 0)).2.2
        == 0) = true
  · simp only [hz, if_true]
    exact contentInv_appendNonContent _ _ (fun p => by simp [isContentSegFor]) h1
  · simp only [hz, Bool.false_eq_true, if_false]
    exact h1

theorem contentInv_finalState (v : Vault) (s : MyPluginSettings)
    (af : String × FileInfo) (maxD : Int) :
    contentInv (finalState v s af maxD).1 := by
  have h0 : contentInv (afterSource v s af maxD).1 := by
    unfold afterSource
    exact contentInv_appendNonContent _ _ (fun p => by simp [isContentSegFor])
      (contentInv_processAndAdd v s af.1 af.2 0 true ⟨[], []⟩ contentInv_nil)
  have h1 : contentInv (afterBFS v s af maxD).1 := by
    unfold afterBFS
    exact contentInv_bfsLoop v s maxD 10000 _ _ _ _ h0
  have h2 : contentInv (afterDaily v s af maxD).1 := by
    unfold afterDaily
    by_cases hd : s.includeRecentDailyNotes = true
    · simp only [hd, if_true]
      exact contentInv_dailyStage v s _ _ h1
    · simp only [hd, Bool.false_eq_true, if_false]
      exact h1
  unfold finalState
  by_cases hz : ((afterDaily v s af maxD).2.1 == 0) = true
  · simp only [hz, if_true]
    exact contentInv_appendNonContent _ _ (fun p => by simp [isContentSegFor]) h2
  · simp only [hz, Bool.false_eq_true, if_false]
    by_cases hone : (((afterDaily v s af maxD).2.1 ==
        (if (afterDaily v s af maxD).1.included.contains af.1 then 1 else 0)) &&
        !(v.resolvedLinks af.1).isEmpty) = true
    · simp only [hone, if_true]
      exact contentInv_appendNonContent _ _ (fun p => by simp [isContentSegFor]) h2
    · simp only [hone, Bool.false_eq_true, if_false]
      exact h2

/-- C2: in any run, no document's content block appears more than once in
the assembled output, whatever the link multiplicity of its id or the
overlap between the traversal and the daily channel. -/
theorem claimC2_thm (v : Vault) (s : MyPluginSettings)
    (af : Option (String × FileInfo)) (ts : String) (p : String) :
    runContentCount p (createContextFile v s af ts) ≤ 1 := by
  unfold createContextFile
  cases af with
  | none => simp [runContentCount, runSegs]
  | some a =>
    by_cases hmd : (a.2.extension == ("md")) = true
    · simp only [hmd, Bool.not_true, Bool.false_eq_true, if_false]
      cases hd : s.linkDepth with
      | num x =>
        by_cases hx : x < 1
        · simp [hx, runContentCount, runSegs]
        · simp only [hx, if_false]
          have h := contentInv_finalState v s a x p
          simp only [runContentCount, runSegs]
          refine le_trans h ?_
          by_cases hc : p ∈ (finalState v s a x).1.included <;> simp [hc]
      | nanv => simp [runContentCount, runSegs]
      | notNumber => simp [runContentCount, runSegs]
    · simp only [Bool.not_eq_true] at hmd
      simp only [hmd, Bool.not_false, if_true]
      simp [runContentCount, runSegs]

theorem reachAt_zero_src {v : Vault} {src q : String} (h : ReachAt v src q 0) :
    q = src := by
  cases h
  rfl

theorem reachAt_succ_split {v : Vault} {src q : String} {n : Nat}
    (h : ReachAt v src q (n + 1)) :
    ∃ b, ReachAt v src b n ∧ (b = src ∨ mdOkP v b) ∧ q ∈ v.resolvedLinks b := by
  cases h with
  | step hb hok hedge => exact ⟨_, hb, hok, hedge⟩

theorem enqueueChildren_cons (c : String) (links : List String)
    (q : List (String × Nat)) (vis : List String) (nd : Nat) :
    enqueueChildren (c :: links) q vis nd =
      if c ∈ vis then enqueueChildren links q vis nd
      else enqueueChildren links (q ++ [(c, nd)]) (c :: vis) nd := by
  by_cases h : c ∈ vis
  · simp [enqueueChildren, h]
  · simp [enqueueChildren, h]

theorem enqueueChildren_vis_sub (nd : Nat) :
    ∀ (links : List String) (q : List (String × Nat)) (vis : List String),
      ∀ x ∈ vis, x ∈ (enqueueChildren links q vis nd).2 := by
  intro links
  induction links with
  | nil => intro q vis x hx; exact hx
  | cons c links ih =>
    intro q vis x hx
    rw [enqueueChildren_cons]
    by_cases h : c ∈ vis
    · rw [if_pos h]; exact ih q vis x hx
    · rw [if_neg h]; exact ih _ (c :: vis) x (List.mem_cons_of_mem c hx)

theorem enqueueChildren_links_sub (nd : Nat) :
    ∀ (links : List String) (q : List (String × Nat)) (vis : List String),
      ∀ x ∈ links, x ∈ (enqueueChildren links q vis nd).2 := by
  intro links
  induction links with
  | nil => intro q vis x hx; exact absurd hx (List.not_mem_nil x)
  | cons c links ih =>
    intro q vis x hx
    rw [enqueueChildren_cons]
    rcases List.mem_cons.mp hx with hx1 | hx1
    · by_cases h : c ∈ vis
      · rw [if_pos h]
        rw [hx1]
        exact enqueueChildren_vis_sub nd links q vis c h
      · rw [if_neg h]
        rw [hx1]
        exact enqueueChildren_vis_sub nd links _ (c :: vis) c (List.mem_cons_self c vis)
    · by_cases h : c ∈ vis
      · rw [if_pos h]; exact ih q vis x hx1
      · rw [if_neg h]; exact ih _ (c :: vis) x hx1

theorem enqueueChildren_queue_structure (nd : Nat) :
    ∀ (links : List String) (q : List (String × Nat)) (vis : List String),
      ∃ newPart, (enqueueChildren links q vis nd).1 = q ++ newPart ∧
        ∀ x ∈ newPart, x.2 = nd ∧ x.1 ∈ links ∧ x.1 ∉ vis := by
  intro links
  induction links with
  | nil =>
    intro q vis
    exact ⟨[], by simp [enqueueChildren], by simp⟩
  | cons c links ih =>
    intro q vis
    rw [enqueueChildren_cons]
    by_cases h : c ∈ vis
    · rw [if_pos h]
      rcases ih q vis with ⟨np, heq, hp⟩
      refine ⟨np, heq, ?_⟩
      intro x hx
      rcases hp x hx with ⟨h1, h2, h3⟩
      exact ⟨h1, List.mem_cons_of_mem c h2, h3⟩
    · rw [if_neg h]
      rcases ih (q ++ [(c, nd)]) (c :: vis) with ⟨np, heq, hp⟩
      refine ⟨(c, nd) :: np, by rw [heq]; simp, ?_⟩
      intro x hx
      rcases List.mem_cons.mp hx with hx1 | hx1
      · rw [hx1]
        exact ⟨rfl, List.mem_cons_self c links, h⟩
      · rcases hp x hx1 with ⟨h1, h2, h3⟩
        refine ⟨h1, List.mem_cons_of_mem c h2, ?_⟩
        intro hv
        exact h3 (List.mem_cons_of_mem c hv)

theorem enqueueChildren_vis_cases (nd : Nat) :
    ∀ (links : List String) (q : List (String × Nat)) (vis : List String),
      ∀ p ∈ (enqueueChildren links q vis nd).2,
        p ∈ vis ∨ (p, nd) ∈ (enqueueChildren links q vis nd).1 := by
  intro links
  induction links with
  | nil => intro q vis p hp; exact Or.inl hp
  | cons c links ih =>
    intro q vis p hp
    rw [enqueueChildren_cons] at hp ⊢
    by_cases h : c ∈ vis
    · rw [if_pos h] at hp ⊢
      exact ih q vis p hp
    · rw [if_neg h] at hp ⊢
      rcases ih _ (c :: vis) p hp with h1 | h1
      · rcases List.mem_cons.mp h1 with h2 | h2
        · refine Or.inr ?_
          rcases enqueueChildren_queue_structure nd links (q ++ [(c, nd)]) (c :: vis)
            with ⟨np, heq, _⟩
          rw [heq, h2]
          exact List.mem_append_left np (List.mem_append_right q (List.mem_singleton.mpr rfl))
        · exact Or.inl h2
      · exact Or.inr h1

theorem enqueueChildren_queue_vis (nd : Nat) (links : List String)
    (q : List (String × Nat)) (vis : List String) (hq : ∀ x ∈ q, x.1 ∈ vis) :
    ∀ x ∈ (enqueueChildren links q vis nd).1, x.1 ∈ (enqueueChildren links q vis nd).2 := by
  intro x hx
  rcases enqueueChildren_queue_structure nd links q vis with ⟨np, heq, hp⟩
  rw [heq] at hx
  rcases List.mem_append.mp hx with h1 | h1
  · exact enqueueChildren_vis_sub nd links q vis x.1 (hq x h1)
  · exact enqueueChildren_links_sub nd links q vis x.1 (hp x h1).2.1

theorem enqueueChildren_nodup (nd : Nat) :
    ∀ (links : List String) (q : List (String × Nat)) (vis : List String),
      (q.map Prod.fst).Nodup → (∀ x ∈ q, x.1 ∈ vis) →
      ((enqueueChildren links q vis nd).1.map Prod.fst).Nodup := by
  intro links
  induction links with
  | nil => intro q vis hnd _; exact hnd
  | cons c links ih =>
    intro q vis hnd hq
    rw [enqueueChildren_cons]
    by_cases h : c ∈ vis
    · rw [if_pos h]; exact ih q vis hnd hq
    · rw [if_neg h]
      refine ih (q ++ [(c, nd)]) (c :: vis) ?_ ?_
      · rw [List.map_append]
        refine List.Nodup.append hnd (by simp) ?_
        intro a ha hb
        simp only [List.map_cons, List.map_nil, List.mem_singleton] at hb
        rw [hb] at ha
        rcases List.mem_map.mp ha with ⟨x, hx, hx1⟩
        exact h (hx1 ▸ hq x hx)
      · intro x hx
        rcases List.mem_append.mp hx with h1 | h1
        · exact List.mem_cons_of_mem c (hq x h1)
        · simp only [List.mem_singleton] at h1
          rw [h1]
          exact List.mem_cons_self c vis

theorem BFSInvCore_shift {v : Vault} {src : String} {maxD : Int}
    {queue : List (String × Nat)} {vis : List String} {dl : Nat}
    {B : List (String × Nat)} (hne : queue ≠ [])
    (h : BFSInvCore v src maxD queue vis dl [] B) :
    BFSInvCore v src maxD queue vis (dl + 1) B [] := by
  refine ⟨?_, h.hB, ?_, h.hdist, h.hbound, h.hnodup, h.hvisQ, h.hsrcVis, h.hsrcQ,
    h.hcomplA rfl, ?_, h.hexp, h.hsrcExp⟩
  · have := h.hq
    simpa using this
  · intro x hx
    exact absurd hx (List.not_mem_nil x)
  · intro hB0
    exfalso
    apply hne
    have := h.hq
    rw [hB0] at this
    simpa using this

theorem BFSInv_dequeue {v : Vault} {src : String} {maxD : Int} {p0 : String}
    {dl : Nat} {rest : List (String × Nat)} {vis : List String}
    {A' B : List (String × Nat)} (hrest : rest = A' ++ B)
    (h : BFSInvCore v src maxD ((p0, dl) :: rest) vis dl ((p0, dl) :: A') B)
    (hjust : mdOkP v p0 → maxD ≤ (dl : Int)) :
    BFSInv v src maxD rest vis := by
  by_cases hq0 : rest = []
  · exact Or.inl hq0
  · refine Or.inr ?_
    have hexpN : ∀ q j, q ∈ vis → (∀ x ∈ rest, x.1 ≠ q) → q ≠ src →
        ReachAt v src q j → (j : Int) < maxD → mdOkP v q →
        ∀ c ∈ v.resolvedLinks q, c ∈ vis := by
      intro q j hqvis hqnq hqs hreach hjlt hqmd
      by_cases hqp : q = p0
      · exfalso
        have hdp := h.hdist (p0, dl) (List.mem_cons_self _ _)
        have hmin : dl ≤ j := hdp.2 j (hqp ▸ hreach)
        have hmin2 : (dl : Int) ≤ (j : Int) := by exact_mod_cast hmin
        have hj2 := hjust (hqp ▸ hqmd)
        omega
      · refine h.hexp q j hqvis ?_ hqs hreach hjlt hqmd
        intro x hx
        rcases List.mem_cons.mp hx with hx1 | hx1
        · rw [hx1]
          exact fun he => hqp he.symm
        · exact hqnq x hx1
    have hnodupT : (rest.map Prod.fst).Nodup := by
      have := h.hnodup
      simp only [List.map_cons, List.nodup_cons] at this
      exact this.2
    by_cases hA0 : A' = []
    · subst hA0
      have hBq : rest = B := by simpa using hrest
      subst hBq
      have hBne : rest ≠ [] := hq0
      have hdlt : (dl : Int) < maxD := by
        rcases List.exists_mem_of_ne_nil rest hBne with ⟨x, hx⟩
        have hb := h.hbound x (List.mem_cons_of_mem _ hx)
        have hlab := h.hB x hx
        have hc2 : ((dl + 1 : Nat) : Int) ≤ maxD := by rw [← hlab]; exact hb.2
        push_cast at hc2
        omega
      refine ⟨dl + 1, rest, [], ⟨(List.append_nil rest).symm, h.hB, ?_, ?_, ?_,
        hnodupT, ?_, h.hsrcVis, ?_, ?_, ?_, hexpN, h.hsrcExp⟩⟩
      · intro x hx
        exact absurd hx (List.not_mem_nil x)
      · intro x hx
        exact h.hdist x (List.mem_cons_of_mem _ hx)
      · intro x hx
        exact h.hbound x (List.mem_cons_of_mem _ hx)
      · intro x hx
        exact h.hvisQ x (List.mem_cons_of_mem _ hx)
      · intro x hx
        exact h.hsrcQ x (List.mem_cons_of_mem _ hx)
      · intro q j hreach hj
        rcases Nat.eq_or_lt_of_le hj with heq2 | hlt2
        · subst heq2
          rcases reachAt_succ_split hreach with ⟨bb, hbr, hbok, hbe⟩
          by_cases hbs : bb = src
          · exact h.hsrcExp q (hbs ▸ hbe)
          · have hbmd : mdOkP v bb := by
              rcases hbok with hbok | hbok
              · exact absurd hbok hbs
              · exact hbok
            have hbvis : bb ∈ vis := h.hcompl bb dl hbr le_rfl
            have hbnp0 : bb ≠ p0 := by
              intro he
              have hj2 := hjust (he ▸ hbmd)
              omega
            refine h.hexp bb dl hbvis ?_ hbs hbr hdlt hbmd q hbe
            intro x hx
            rcases List.mem_cons.mp hx with hx1 | hx1
            · rw [hx1]
              exact fun he => hbnp0 he.symm
            · intro he
              have hd := h.hdist x (List.mem_cons_of_mem _ hx1)
              have hmin := hd.2 dl (he ▸ hbr)
              have hlab := h.hB x hx1
              omega
        · exact h.hcompl q j hreach (Nat.lt_succ_iff.mp hlt2)
      · intro hB0
        exact absurd hB0 hBne
    · refine ⟨dl, A', B, ⟨hrest, ?_, h.hB, ?_, ?_, hnodupT, ?_, h.hsrcVis, ?_,
        h.hcompl, ?_, hexpN, h.hsrcExp⟩⟩
      · intro x hx
        exact h.hA x (List.mem_cons_of_mem _ hx)
      · intro x hx
        exact h.hdist x (List.mem_cons_of_mem _ hx)
      · intro x hx
        exact h.hbound x (List.mem_cons_of_mem _ hx)
      · intro x hx
        exact h.hvisQ x (List.mem_cons_of_mem _ hx)
      · intro x hx
        exact h.hsrcQ x (List.mem_cons_of_mem _ hx)
      · intro hc
        exact absurd hc hA0

theorem BFSInv_dequeue_expand {v : Vault} {src : String} {maxD : Int} {p0 : String}
    {dl : Nat} {rest : List (String × Nat)} {vis : List String}
    {A' B : List (String × Nat)} (hrest : rest = A' ++ B)
    (h : BFSInvCore v src maxD ((p0, dl) :: rest) vis dl ((p0, dl) :: A') B)
    (hmd : mdOkP v p0) (hlt : (dl : Int) < maxD) :
    BFSInv v src maxD
      (enqueueChildren (v.resolvedLinks p0) rest vis (dl + 1)).1
      (enqueueChildren (v.resolvedLinks p0) rest vis (dl + 1)).2 := by
  rcases enqueueChildren_queue_structure (dl + 1) (v.resolvedLinks p0) rest vis
    with ⟨np, heq, hnp⟩
  by_cases hq0 : (enqueueChildren (v.resolvedLinks p0) rest vis (dl + 1)).1 = []
  · exact Or.inl hq0
  · refine Or.inr ?_
    have hvisQT : ∀ x ∈ rest, x.1 ∈ vis := fun x hx =>
      h.hvisQ x (List.mem_cons_of_mem _ hx)
    have hreachP0 : ReachAt v src p0 dl :=
      (h.hdist (p0, dl) (List.mem_cons_self _ _)).1
    have hsub1 : ∀ q, q ∈ vis →
        q ∈ (enqueueChildren (v.resolvedLinks p0) rest vis (dl + 1)).2 :=
      fun q hq => enqueueChildren_vis_sub (dl + 1) (v.resolvedLinks p0) rest vis q hq
    have hsub2 : ∀ q, q ∈ v.resolvedLinks p0 →
        q ∈ (enqueueChildren (v.resolvedLinks p0) rest vis (dl + 1)).2 :=
      fun q hq => enqueueChildren_links_sub (dl + 1) (v.resolvedLinks p0) rest vis q hq
    have hdistN : ∀ x ∈ (enqueueChildren (v.resolvedLinks p0) rest vis (dl + 1)).1,
        IsDist v src x.1 x.2 := by
      intro x hx
      rw [heq] at hx
      rcases List.mem_append.mp hx with h1 | h1
      · exact h.hdist x (List.mem_cons_of_mem _ h1)
      · rcases hnp x h1 with ⟨hx2, hxl, hxv⟩
        rw [hx2]
        refine ⟨ReachAt.step hreachP0 (Or.inr hmd) hxl, ?_⟩
        intro j hr
        by_contra hno
        have hj : j ≤ dl := by omega
        exact hxv (h.hcompl x.1 j hr hj)
    have hboundN : ∀ x ∈ (enqueueChildren (v.resolvedLinks p0) rest vis (dl + 1)).1,
        1 ≤ x.2 ∧ (x.2 : Int) ≤ maxD := by
      intro x hx
      rw [heq] at hx
      rcases List.mem_append.mp hx with h1 | h1
      · exact h.hbound x (List.mem_cons_of_mem _ h1)
      · rcases hnp x h1 with ⟨hx2, _, _⟩
        rw [hx2]
        refine ⟨by omega, ?_⟩
        push_cast
        omega
    have hsrcQN : ∀ x ∈ (enqueueChildren (v.resolvedLinks p0) rest vis (dl + 1)).1,
        x.1 ≠ src := by
      intro x hx
      rw [heq] at hx
      rcases List.mem_append.mp hx with h1 | h1
      · exact h.hsrcQ x (List.mem_cons_of_mem _ h1)
      · rcases hnp x h1 with ⟨_, _, hxv⟩
        intro he
        exact hxv (he ▸ h.hsrcVis)
    have hnodupT : (rest.map Prod.fst).Nodup := by
      have := h.hnodup
      simp only [List.map_cons, List.nodup_cons] at this
      exact this.2
    have hnodupN := enqueueChildren_nodup (dl + 1) (v.resolvedLinks p0) rest vis
      hnodupT hvisQT
    have hvisQN := enqueueChildren_queue_vis (dl + 1) (v.resolvedLinks p0) rest vis
      hvisQT
    have hsrcVisN := hsub1 src h.hsrcVis
    have hsrcExpN : ∀ c ∈ v.resolvedLinks src,
        c ∈ (enqueueChildren (v.resolvedLinks p0) rest vis (dl + 1)).2 :=
      fun c hc => hsub1 c (h.hsrcExp c hc)
    have hexpN : ∀ q j,
        q ∈ (enqueueChildren (v.resolvedLinks p0) rest vis (dl + 1)).2 →
        (∀ x ∈ (enqueueChildren (v.resolvedLinks p0) rest vis (dl + 1)).1, x.1 ≠ q) →
        q ≠ src → ReachAt v src q j → (j : Int) < maxD → mdOkP v q →
        ∀ c ∈ v.resolvedLinks q,
          c ∈ (enqueueChildren (v.resolvedLinks p0) rest vis (dl + 1)).2 := by
      intro q j hqvis hqnq hqs hreach hjlt hqmd
      by_cases hqp : q = p0
      · subst hqp
        intro c hc
        exact hsub2 c hc
      · have hqvis2 : q ∈ vis := by
          rcases enqueueChildren_vis_cases (dl + 1) (v.resolvedLinks p0) rest vis q hqvis
            with h1 | h1
          · exact h1
          · exact absurd rfl (hqnq (q, dl + 1) h1)
        have hold : ∀ x ∈ (p0, dl) :: rest, x.1 ≠ q := by
          intro x hx
          rcases List.mem_cons.mp hx with hx1 | hx1
          · rw [hx1]
            exact fun he => hqp he.symm
          · refine hqnq x ?_
            rw [heq]
            exact List.mem_append_left np hx1
        intro c hc
        exact hsub1 c (h.hexp q j hqvis2 hold hqs hreach hjlt hqmd c hc)
    by_cases hA0 : A' = []
    · -- the dl level is exhausted: shift to level dl + 1
      subst hA0
      have hBq : rest = B := by simpa using hrest
      subst hBq
      have hcomplHi : ∀ q j, ReachAt v src q j → j ≤ dl + 1 →
          q ∈ (enqueueChildren (v.resolvedLinks p0) rest vis (dl + 1)).2 := by
        intro q j hreach hj
        rcases Nat.eq_or_lt_of_le hj with heq2 | hlt2
        · subst heq2
          rcases reachAt_succ_split hreach with ⟨bb, hbr, hbok, hbe⟩
          by_cases hbs : bb = src
          · exact hsub1 q (h.hsrcExp q (hbs ▸ hbe))
          · have hbmd : mdOkP v bb := by
              rcases hbok with hbok | hbok
              · exact absurd hbok hbs
              · exact hbok
            by_cases hbp : bb = p0
            · exact hsub2 q (hbp ▸ hbe)
            · have hbvis : bb ∈ vis := h.hcompl bb dl hbr le_rfl
              refine hsub1 q (h.hexp bb dl hbvis ?_ hbs hbr hlt hbmd q hbe)
              intro x hx
              rcases List.mem_cons.mp hx with hx1 | hx1
              · rw [hx1]
                exact fun he => hbp he.symm
              · intro he
                have hd := h.hdist x (List.mem_cons_of_mem _ hx1)
                have hmin := hd.2 dl (he ▸ hbr)
                have hlab := h.hB x hx1
                omega
        · exact hsub1 q (h.hcompl q j hreach (Nat.lt_succ_iff.mp hlt2))
      have hABN : ∀ x ∈ (enqueueChildren (v.resolvedLinks p0) rest vis (dl + 1)).1,
          x.2 = dl + 1 := by
        intro x hx
        rw [heq] at hx
        rcases List.mem_append.mp hx with h1 | h1
        · exact h.hB x h1
        · exact (hnp x h1).1
      refine ⟨dl + 1, (enqueueChildren (v.resolvedLinks p0) rest vis (dl + 1)).1, [],
        ⟨(List.append_nil _).symm, hABN, ?_, hdistN, hboundN, hnodupN, hvisQN,
          hsrcVisN, hsrcQN, hcomplHi, ?_, hexpN, hsrcExpN⟩⟩
      · intro x hx
        exact absurd hx (List.not_mem_nil x)
      · intro hc
        exact absurd hc hq0
    · -- entries of the dl level remain in front
      refine ⟨dl, A', B ++ np, ⟨?_, ?_, ?_, hdistN, hboundN, hnodupN, hvisQN,
        hsrcVisN, hsrcQN, ?_, ?_, hexpN, hsrcExpN⟩⟩
      · rw [heq, hrest]
        simp [List.append_assoc]
      · intro x hx
        exact h.hA x (List.mem_cons_of_mem _ hx)
      · intro x hx
        rcases List.mem_append.mp hx with h1 | h1
        · exact h.hB x h1
        · exact (hnp x h1).1
      · intro q j hreach hj
        exact hsub1 q (h.hcompl q j hreach hj)
      · intro hc
        exact absurd hc hA0

theorem BFSInv_head {v : Vault} {src : String} {maxD : Int} {p0 : String} {d0 : Nat}
    {rest : List (String × Nat)} {vis : List String}
    (h : BFSInv v src maxD ((p0, d0) :: rest) vis) :
    ∃ A' B, rest = A' ++ B ∧
      BFSInvCore v src maxD ((p0, d0) :: rest) vis d0 ((p0, d0) :: A') B := by
  rcases h with h0 | ⟨dl, A, B, hc⟩
  · exact absurd h0 (List.cons_ne_nil _ _)
  · cases A with
    | nil =>
      have hc2 := BFSInvCore_shift (List.cons_ne_nil _ _) hc
      have hBq : B = (p0, d0) :: rest := by
        have := hc.hq
        simpa using this.symm
      subst hBq
      have hd0 : d0 = dl + 1 := hc2.hA (p0, d0) (List.mem_cons_self _ _)
      subst hd0
      exact ⟨rest, [], (List.append_nil rest).symm, hc2⟩
    | cons a A'' =>
      have hq := hc.hq
      rw [List.cons_append] at hq
      injection hq with h1 h2
      have ha : a = (p0, d0) := h1.symm
      have hrest : rest = A'' ++ B := h2
      subst ha
      have hd0 : d0 = dl := hc.hA (p0, d0) (List.mem_cons_self _ _)
      subst hd0
      exact ⟨A'', B, hrest, hc⟩

theorem BFSInv_init (v : Vault) (src : String) (maxD : Int) (hmax : 1 ≤ maxD) :
    BFSInv v src maxD (enqueueChildren (v.resolvedLinks src) [] [src] 1).1
      (enqueueChildren (v.resolvedLinks src) [] [src] 1).2 := by
  rcases enqueueChildren_queue_structure 1 (v.resolvedLinks src) [] [src]
    with ⟨np, heq, hnp⟩
  have heq2 : (enqueueChildren (v.resolvedLinks src) [] [src] 1).1 = np := by
    simpa using heq
  by_cases hq0 : (enqueueChildren (v.resolvedLinks src) [] [src] 1).1 = []
  · exact Or.inl hq0
  · refine Or.inr ?_
    have hsub1 : ∀ q, q ∈ ([src] : List String) →
        q ∈ (enqueueChildren (v.resolvedLinks src) [] [src] 1).2 :=
      fun q hq => enqueueChildren_vis_sub 1 (v.resolvedLinks src) [] [src] q hq
    have hsub2 : ∀ q, q ∈ v.resolvedLinks src →
        q ∈ (enqueueChildren (v.resolvedLinks src) [] [src] 1).2 :=
      fun q hq => enqueueChildren_links_sub 1 (v.resolvedLinks src) [] [src] q hq
    have hsrcVisN := hsub1 src (List.mem_singleton.mpr rfl)
    have hmemnp : ∀ x ∈ (enqueueChildren (v.resolvedLinks src) [] [src] 1).1,
        x.2 = 1 ∧ x.1 ∈ v.resolvedLinks src ∧ x.1 ∉ ([src] : List String) := by
      intro x hx
      rw [heq2] at hx
      exact hnp x hx
    refine ⟨1, (enqueueChildren (v.resolvedLinks src) [] [src] 1).1, [],
      ⟨(List.append_nil _).symm, fun x hx => (hmemnp x hx).1, ?_, ?_, ?_, ?_, ?_,
        hsrcVisN, ?_, ?_, ?_, ?_, hsub2⟩⟩
    · intro x hx
      exact absurd hx (List.not_mem_nil x)
    · intro x hx
      rcases hmemnp x hx with ⟨hx1, hx2, hx3⟩
      have hxs : x.1 ≠ src := fun he => hx3 (by rw [he]; exact List.mem_singleton.mpr rfl)
      rw [hx1]
      refine ⟨ReachAt.step ReachAt.zero (Or.inl rfl) hx2, ?_⟩
      intro j hr
      by_contra hno
      have hj : j = 0 := by omega
      exact hxs (reachAt_zero_src (hj ▸ hr))
    · intro x hx
      rcases hmemnp x hx with ⟨hx1, _, _⟩
      rw [hx1]
      exact ⟨le_rfl, by exact_mod_cast hmax⟩
    · exact enqueueChildren_nodup 1 (v.resolvedLinks src) [] [src] (by simp) (by simp)
    · exact enqueueChildren_queue_vis 1 (v.resolvedLinks src) [] [src] (by simp)
    · intro x hx
      rcases hmemnp x hx with ⟨_, _, hx3⟩
      exact fun he => hx3 (by rw [he]; exact List.mem_singleton.mpr rfl)
    · intro q j hreach hj
      match j, hj with
      | 0, _ =>
        rw [reachAt_zero_src hreach]
        exact hsrcVisN
      | 1, _ =>
        rcases reachAt_succ_split hreach with ⟨bb, hbr, _, hbe⟩
        rw [reachAt_zero_src hbr] at hbe
        exact hsub2 q hbe
    · intro hc
      exact absurd hc hq0
    · intro q j hqvis hqnq hqs hreach hjlt hqmd
      exfalso
      rcases enqueueChildren_vis_cases 1 (v.resolvedLinks src) [] [src] q hqvis
        with h1 | h1
      · exact hqs (List.mem_singleton.mp h1)
      · exact hqnq (q, 1) h1 rfl

theorem processAndAdd_segs (v : Vault) (s : MyPluginSettings) (path : String)
    (f : FileInfo) (d : Nat) (isS : Bool) (st : ProcState) :
    (processAndAddNoteContent v s path f d isS st).2.segs = st.segs ∨
    ∃ a, (processAndAddNoteContent v s path f d isS st).2.segs = st.segs ++ [a] ∧
      ∀ p isS2 d2 b c, a = Seg.includedNote p isS2 d2 b c →
        p = path ∧ isS2 = isS ∧ d2 = d := by
  unfold processAndAddNoteContent
  by_cases h1 : st.included.contains path = true
  · simp only [h1, if_true]
    exact Or.inl trivial
  · simp only [h1, Bool.false_eq_true, if_false]
    by_cases h2 : passesFilters s (v.getCache path) = true
    · simp only [h2, if_true]
      cases hr : v.readContent path with
      | some fc =>
        refine Or.inr ⟨_, rfl, ?_⟩
        intro p isS2 d2 b c hEq
        rw [Seg.includedNote.injEq] at hEq
        exact ⟨hEq.1.symm, hEq.2.1.symm, hEq.2.2.1.symm⟩
      | none =>
        refine Or.inr ⟨_, rfl, ?_⟩
        intro p isS2 d2 b c hEq
        simp at hEq
    · simp only [h2, Bool.false_eq_true, if_false]
      by_cases h3 : isS = true
      · simp only [h3, if_true]
        refine Or.inr ⟨_, rfl, ?_⟩
        intro p isS2 d2 b c hEq
        simp at hEq
      · simp only [h3, Bool.false_eq_true, if_false]
        exact Or.inl trivial

theorem bfsLoop_segs_dist (v : Vault) (s : MyPluginSettings) (src : String)
    (maxD : Int) :
    ∀ (fuel : Nat) (queue : List (String × Nat)) (st : ProcState)
      (vis : List String) (cnt : Nat), BFSInv v src maxD queue vis →
      ∀ p isS d b c,
        Seg.includedNote p isS d b c ∈ (bfsLoop v s maxD fuel queue st vis cnt).1.segs →
        Seg.includedNote p isS d b c ∈ st.segs ∨ (isS = false ∧ IsDist v src p d) := by
  intro fuel
  induction fuel with
  | zero =>
    intro queue st vis cnt hinv p isS d b c h
    cases queue with
    | nil => exact Or.inl (by simpa [bfsLoop] using h)
    | cons x rest => exact Or.inl (by simpa [bfsLoop] using h)
  | succ n ih =>
    intro queue st vis cnt hinv p isS d b c h
    match queue with
    | [] => exact Or.inl (by simpa [bfsLoop] using h)
    | (p0, d0) :: rest =>
      rcases BFSInv_head hinv with ⟨A', B, hrest, hcore⟩
      rw [bfsLoop] at h
      cases hf : v.getFile p0 with
      | none =>
        rw [hf] at h
        have hinv2 : BFSInv v src maxD rest vis :=
          BFSInv_dequeue hrest hcore (fun hm => by
            rcases hm with ⟨f', hf', _⟩
            rw [hf] at hf'
            cases hf')
        exact ih rest st vis cnt hinv2 p isS d b c h
      | some f =>
        rw [hf] at h
        have hdp0 : IsDist v src p0 d0 := hcore.hdist (p0, d0) (List.mem_cons_self _ _)
        have hsegs := processAndAdd_segs v s p0 f d0 false st
        by_cases hmd : (f.extension == ("md")) = true
        · simp only [hmd, Bool.not_true, Bool.false_eq_true, if_false] at h
          have hmdP : mdOkP v p0 := ⟨f, hf, by simpa using hmd⟩
          by_cases hlt : (d0 : Int) < maxD
          · rw [if_pos hlt] at h
            have hinv2 := BFSInv_dequeue_expand hrest hcore hmdP hlt
            rcases ih _ _ _ _ hinv2 p isS d b c h with h1 | h1
            · rcases hsegs with hs | ⟨a, hs, hinj⟩
              · rw [hs] at h1
                exact Or.inl h1
              · rw [hs] at h1
                rcases List.mem_append.mp h1 with h2 | h2
                · exact Or.inl h2
                · have h3 : a = Seg.includedNote p isS d b c :=
                    (List.mem_singleton.mp h2).symm
                  rcases hinj p isS d b c h3 with ⟨hp, hS, hd⟩
                  subst hp
                  subst hd
                  exact Or.inr ⟨hS, hdp0⟩
            · exact Or.inr h1
          · rw [if_neg hlt] at h
            have hinv2 := BFSInv_dequeue hrest hcore (fun _ => not_lt.mp hlt)
            rcases ih _ _ _ _ hinv2 p isS d b c h with h1 | h1
            · rcases hsegs with hs | ⟨a, hs, hinj⟩
              · rw [hs] at h1
                exact Or.inl h1
              · rw [hs] at h1
                rcases List.mem_append.mp h1 with h2 | h2
                · exact Or.inl h2
                · have h3 : a = Seg.includedNote p isS d b c :=
                    (List.mem_singleton.mp h2).symm
                  rcases hinj p isS d b c h3 with ⟨hp, hS, hd⟩
                  subst hp
                  subst hd
                  exact Or.inr ⟨hS, hdp0⟩
            · exact Or.inr h1
        · simp only [Bool.not_eq_true] at hmd
          simp only [hmd, Bool.not_false, if_true] at h
          have hinv2 : BFSInv v src maxD rest vis :=
            BFSInv_dequeue hrest hcore (fun hm => by
              rcases hm with ⟨f', hf', hext⟩
              rw [hf] at hf'
              injection hf' with hff
              rw [← hff] at hext
              rw [hext] at hmd
              simp at hmd)
          exact ih rest st vis cnt hinv2 p isS d b c h

theorem dailyFold_included_mem (v : Vault) (s : MyPluginSettings) :
    ∀ (L : List (String × FileInfo)) (acc : ProcState × Nat × Nat)
      (p : String) (isS : Bool) (d : Nat) (b c : String),
      Seg.includedNote p isS d b c ∈ (L.foldl (dailyStep v s) acc).1.segs →
      Seg.includedNote p isS d b c ∈ acc.1.segs := by
  intro L
  induction L with
  | nil => intro acc p isS d b c h; exact h
  | cons pf L ih =>
    intro acc p isS d b c h
    rw [List.foldl_cons] at h
    have h1 := ih (dailyStep v s acc pf) p isS d b c h
    by_cases h2 : acc.1.included.contains pf.1 = true
    · rw [dailyStep, if_pos h2] at h1
      exact h1
    · by_cases h3 : passesPrivacyFilter s (v.getCache pf.1) = true
      · cases hr : v.readContent pf.1 with
        | some fc =>
          rw [dailyStep, if_neg h2, if_pos h3, hr] at h1
          simp only [List.mem_append, List.mem_singleton] at h1
          rcases h1 with h1 | h1
          · exact h1
          · simp at h1
        | none =>
          rw [dailyStep, if_neg h2, if_pos h3, hr] at h1
          simp only [List.mem_append, List.mem_singleton] at h1
          rcases h1 with h1 | h1
          · exact h1
          · simp at h1
      · rw [dailyStep, if_neg h2, if_neg h3] at h1
        exact h1

theorem dailyStage_included_mem (v : Vault) (s : MyPluginSettings) (st : ProcState)
    (cnt : Nat) (p : String) (isS : Bool) (d : Nat) (b c : String)
    (h : Seg.includedNote p isS d b c ∈ (dailyStage v s st cnt).1.segs) :
    Seg.includedNote p isS d b c ∈ st.segs := by
  unfold dailyStage at h
  have hbase : Seg.includedNote p isS d b c ∈
      (⟨st.segs ++ [Seg.dailyHeader s.numberOfRecentDays], st.included⟩ : ProcState).segs →
      Seg.includedNote p isS d b c ∈ st.segs := by
    intro hx
    simp only [List.mem_append, List.mem_singleton] at hx
    rcases hx with hx | hx
    · exact hx
    · simp at hx
  by_cases hz : (((dailyToProcess v s).foldl (dailyStep v s)
      (⟨st.segs ++ [Seg.dailyHeader s.numberOfRecentDays], st.included⟩, cnt, 0)).2.2
        == 0) = true
  · rw [if_pos hz] at h
    simp only [List.mem_append, List.mem_singleton] at h
    rcases h with h | h
    · exact hbase (dailyFold_included_mem v s _ _ p isS d b c h)
    · simp at h
  · rw [if_neg hz] at h
    exact hbase (dailyFold_included_mem v s _ _ p isS d b c h)

/-- C3: every linked-note block of a run is labelled with the exact BFS
distance of its document from the source note, through the traversable
link graph — ids are enqueued once, at first discovery, in FIFO order. -/
theorem claimC3_thm (v : Vault) (s : MyPluginSettings) (af : String × FileInfo)
    (ts p b c : String) (d : Nat)
    (h : Seg.includedNote p false d b c ∈ runSegs (createContextFile v s (some af) ts)) :
    IsDist v af.1 p d := by
  unfold createContextFile at h
  by_cases hmd : (af.2.extension == ("md")) = true
  · simp only [hmd, Bool.not_true, Bool.false_eq_true, if_false] at h
    cases hd : s.linkDepth with
    | num x =>
      rw [hd] at h
      simp only [] at h
      by_cases hx : x < 1
      · rw [if_pos hx] at h
        simp [runSegs] at h
      · rw [if_neg hx] at h
        simp only [runSegs] at h
        have hmem : Seg.includedNote p false d b c ∈ (afterDaily v s af x).1.segs := by
          unfold finalState at h
          by_cases hz : ((afterDaily v s af x).2.1 == 0) = true
          · rw [if_pos hz] at h
            simp only [List.mem_append, List.mem_singleton] at h
            rcases h with h | h
            · exact h
            · simp at h
          · rw [if_neg hz] at h
            by_cases hone : (((afterDaily v s af x).2.1 ==
                (if (afterDaily v s af x).1.included.contains af.1 then 1 else 0)) &&
                !(v.resolvedLinks af.1).isEmpty) = true
            · rw [if_pos hone] at h
              simp only [List.mem_append, List.mem_singleton] at h
              rcases h with h | h
              · exact h
              · simp at h
            · rw [if_neg hone] at h
              exact h
        have hmem2 : Seg.includedNote p false d b c ∈ (afterBFS v s af x).1.segs := by
          unfold afterDaily at hmem
          by_cases hdn : s.includeRecentDailyNotes = true
          · rw [if_pos hdn] at hmem
            exact dailyStage_included_mem v s _ _ p false d b c hmem
          · rw [if_neg hdn] at hmem
            exact hmem
        unfold afterBFS at hmem2
        have hinit := BFSInv_init v af.1 x (by omega)
        rcases bfsLoop_segs_dist v s af.1 x 10000 _ _ _ _ hinit p false d b c hmem2
          with h1 | h1
        · exfalso
          unfold afterSource at h1
          simp only [List.mem_append, List.mem_singleton] at h1
          rcases h1 with h1 | h1
          · rcases processAndAdd_segs v s af.1 af.2 0 true ⟨[], []⟩ with hs | ⟨a, hs, hinj⟩
            · rw [hs] at h1
              simp at h1
            · rw [hs] at h1
              simp only [List.nil_append, List.mem_singleton] at h1
              rcases hinj p false d b c h1.symm with ⟨_, hS, _⟩
              simp at hS
          · simp at h1
        · exact h1.2
    | nanv =>
      rw [hd] at h
      simp only [] at h
      simp [runSegs] at h
    | notNumber =>
      rw [hd] at h
      simp only [] at h
      simp [runSegs] at h
  · simp only [Bool.not_eq_true] at hmd
    simp only [hmd, Bool.not_false, if_true] at h
    simp [runSegs] at h

theorem claimC3_witness :
    Seg.includedNote ("a.md") false 1 ("a") ("hi") ∈
      runSegs (createContextFile witVault witSettings
        (some (("s.md"), ⟨"s", "md"⟩)) ("t"))
    ∧ IsDist witVault ("s.md") ("a.md") 1 :=
  ⟨by decide,
   claimC3_thm witVault witSettings (("s.md"), ⟨"s", "md"⟩) ("t") ("a.md") ("a")
     ("hi") 1 (by decide)⟩

end ContextFetcher
